import Mathlib

/-!
Verification development for the Production-Tracker payroll system.

The JavaScript sources are shallowly embedded: strings are `String` /
`List Char`, JS numbers are `ℚ` (all arithmetic the claims touch is exact
decimal arithmetic), JS objects keyed by strings are association lists in
insertion order, `null`/`undefined` are `Option`, and thrown errors are
`Option`/`Except` results.  Character classes follow the ASCII semantics of
the regexes in the source (`\d` = 0-9, `[A-Z]` = A-Z, `\s` = ASCII
whitespace; the non-ASCII whitespace JS also accepts never occurs in the
claims' inputs).
-/

namespace Util

/-- ASCII digit, the `\d` class of the source regexes. -/
def charIsDigit (c : Char) : Bool := 48 ≤ c.toNat && c.toNat ≤ 57

/-- ASCII upper-case letter, the `[A-Z]` class. -/
def charIsUpper (c : Char) : Bool := 65 ≤ c.toNat && c.toNat ≤ 90

/-- ASCII lower-case letter. -/
def charIsLower (c : Char) : Bool := 97 ≤ c.toNat && c.toNat ≤ 122

/-- ASCII whitespace, the `\s` class (space, tab, LF, VT, FF, CR). -/
def jsSpace (c : Char) : Bool := c.toNat = 32 || (9 ≤ c.toNat && c.toNat ≤ 13)

/-- The `.` class of the source regexes: any character except line terminators. -/
def dotCls (c : Char) : Bool := !(c.toNat = 10 || c.toNat = 13)

/-- JS `String.prototype.trim` on a character list. -/
def trimChars (l : List Char) : List Char :=
  ((l.dropWhile jsSpace).reverse.dropWhile jsSpace).reverse

/-- JS `String.prototype.trim`. -/
def trimStr (s : String) : String := String.mk (trimChars s.data)

/-- Value of a digit string, most significant first. -/
def digitsVal (l : List Char) : Nat := l.foldl (fun a c => 10 * a + (c.toNat - 48)) 0

/-- JS `parseFloat` restricted to the digits-and-dots strings produced by the
sources' cleaning step: longest valid decimal prefix (integer digits,
optional dot, fraction digits), `none` for NaN. -/
def parseFloatPre (l : List Char) : Option ℚ :=
  match l.drop (l.takeWhile charIsDigit).length with
  | '.' :: r2 =>
      if l.takeWhile charIsDigit = [] ∧ r2.takeWhile charIsDigit = [] then none
      else
        some ((digitsVal (l.takeWhile charIsDigit) : ℚ) +
          (digitsVal (r2.takeWhile charIsDigit) : ℚ) /
            (10 : ℚ) ^ (r2.takeWhile charIsDigit).length)
  | _ =>
      if l.takeWhile charIsDigit = [] then none
      else some ((digitsVal (l.takeWhile charIsDigit) : ℚ))

/-- JS `value.split(sep)` on character lists. -/
def splitChar (sep : Char) : List Char → List (List Char)
  | [] => [[]]
  | c :: t =>
      if c = sep then [] :: splitChar sep t
      else
        match splitChar sep t with
        | [] => [[c]]
        | h :: r => (c :: h) :: r

/-- The `[\d-]` character class kept by the database-layer normalizers. -/
def ccChar (c : Char) : Bool := charIsDigit c || c = '-'

/-- `value.toString().split('.')[0].replace(...).trim()`: drop everything
from the first decimal point on, keep only characters of `cls`, trim. -/
def ccStrip (cls : Char → Bool) (s : String) : List Char :=
  trimChars ((s.data.takeWhile (fun c => c ≠ '.')).filter cls)

end Util

open Util

namespace Db

/-- Leading-zero recovery of `database.js`: a hyphen-less 4-or-5-digit string
whose first digit is nonzero gets a `0` prepended. -/
def pad (l : List Char) : List Char :=
  if l ≠ [] ∧ ¬ ('-' ∈ l) ∧ 4 ≤ l.length ∧ l.length ≤ 5 then
    if l.headD '0' ≠ '0' then '0' :: l else l
  else l

/-- CSI MasterFormat hyphenation: a hyphen-less string of length at least 4
gets a hyphen inserted after its first two characters. -/
def hyph (l : List Char) : List Char :=
  if l ≠ [] ∧ ¬ ('-' ∈ l) ∧ 4 ≤ l.length then
    l.take 2 ++ '-' :: l.drop 2
  else l

/-- `normalizeCostCode` from `database.js` (lines 11-32): drop a decimal
suffix, keep digits and hyphens, left-pad a hyphen-less 4-or-5-digit string
whose first digit is nonzero, then hyphenate; the empty result is `null`. -/
def normalizeCostCode (s : String) : Option String :=
  if hyph (pad (ccStrip ccChar s)) = [] then none
  else some (String.mk (hyph (pad (ccStrip ccChar s))))

end Db

namespace Db2

/-- Leading-zero recovery of the revised database layer
(`src/unnamed/part_000`): only strings of exactly four digits are padded, so
a 5-digit code such as `10240` keeps its own two leading digits. -/
def pad (l : List Char) : List Char :=
  if l ≠ [] ∧ ¬ ('-' ∈ l) ∧ l.length = 4 then
    if l.headD '0' ≠ '0' then '0' :: l else l
  else l

/-- Hyphenation step, identical to the `database.js` one. -/
def hyph (l : List Char) : List Char :=
  if l ≠ [] ∧ ¬ ('-' ∈ l) ∧ 4 ≤ l.length then
    l.take 2 ++ '-' :: l.drop 2
  else l

/-- `normalizeCostCode` from the revised database layer
(`src/unnamed/part_000` lines 12-34). -/
def normalizeCostCode (s : String) : Option String :=
  if hyph (pad (ccStrip ccChar s)) = [] then none
  else some (String.mk (hyph (pad (ccStrip ccChar s))))

end Db2

namespace Srv

/-- `normalizeCostCode` from the server layer (`src/unnamed/part_001` lines
33-39): drop a decimal suffix and strip every non-digit character (`\D`
removes hyphens as well), yielding a digits-only key or `null`. -/
def normalizeCostCode (s : String) : Option String :=
  if ccStrip charIsDigit s = [] then none
  else some (String.mk (ccStrip charIsDigit s))

end Srv

/-- C1, counterexample evidence: on the raw cost code "09-170" the database
layer (both versions, used for the payroll-actual totals) produces the key
"09-170" while the server layer (applied to uploaded budget codes) produces
"09170"; the two normalizations are not the same function, so the budget row
and the actual row for this raw code land under different keys. -/
theorem C1_normalizer_mismatch :
    Srv.normalizeCostCode "09-170" = some "09170" ∧
    Db.normalizeCostCode "09-170" = some "09-170" ∧
    Db2.normalizeCostCode "09-170" = some "09-170" ∧
    (Srv.normalizeCostCode "09-170" == Db.normalizeCostCode "09-170") = false ∧
    Srv.normalizeCostCode "1200" = some "1200" ∧
    Db2.normalizeCostCode "1200" = some "01-200" := by
  refine ⟨by decide, by decide, by decide, by decide, by decide, by decide⟩

/-- C2: the cost-code normalizer of the current database layer maps "1200"
to "01-200", "09-170" to "09-170", and "10240" to "10-240". -/
theorem C2_normalize_examples :
    Db2.normalizeCostCode "1200" = some "01-200" ∧
    Db2.normalizeCostCode "09-170" = some "09-170" ∧
    Db2.normalizeCostCode "10240" = some "10-240" := by
  refine ⟨by decide, by decide, by decide⟩

namespace Util

theorem mem_dropWhile {α : Type} {p : α → Bool} {c : α} :
    ∀ {l : List α}, c ∈ l.dropWhile p → c ∈ l
  | [], h => by simp at h
  | a :: t, h => by
      by_cases hp : p a
      · rw [List.dropWhile_cons_of_pos hp] at h
        exact List.mem_cons_of_mem _ (mem_dropWhile h)
      · rwa [List.dropWhile_cons_of_neg hp] at h

theorem mem_trimChars {c : Char} {l : List Char} (h : c ∈ trimChars l) : c ∈ l := by
  unfold trimChars at h
  rw [List.mem_reverse] at h
  have h2 := mem_dropWhile h
  rw [List.mem_reverse] at h2
  exact mem_dropWhile h2

theorem dropWhile_eq_self {α : Type} {p : α → Bool} {l : List α}
    (h : ∀ c ∈ l, p c = false) : l.dropWhile p = l := by
  cases l with
  | nil => rfl
  | cons a t =>
      have ha : ¬ (p a = true) := by simp [h a (List.mem_cons_self a t)]
      exact List.dropWhile_cons_of_neg ha

theorem trimChars_eq_self {l : List Char} (h : ∀ c ∈ l, jsSpace c = false) :
    trimChars l = l := by
  unfold trimChars
  rw [dropWhile_eq_self h,
      dropWhile_eq_self (fun c hc => h c (List.mem_reverse.mp hc))]
  exact List.reverse_reverse l

theorem charIsDigit_bounds {c : Char} (h : charIsDigit c = true) :
    48 ≤ c.toNat ∧ c.toNat ≤ 57 := by
  simpa [charIsDigit, Bool.and_eq_true, decide_eq_true_eq] using h

theorem notSpace_of_bounds {c : Char} (h1 : 48 ≤ c.toNat) : jsSpace c = false := by
  simp only [jsSpace, Bool.or_eq_false_iff, Bool.and_eq_false_iff,
    decide_eq_false_iff_not]
  exact ⟨by omega, Or.inr (by omega)⟩

theorem ccChar_not_space {c : Char} (h : ccChar c = true) : jsSpace c = false := by
  have hd : charIsDigit c = true ∨ c = '-' := by
    simpa [ccChar, Bool.or_eq_true, decide_eq_true_eq] using h
  rcases hd with hd | rfl
  · exact notSpace_of_bounds (charIsDigit_bounds hd).1
  · decide

theorem ccChar_ne_dot {c : Char} (h : ccChar c = true) : c ≠ '.' := by
  intro hc
  subst hc
  simp [ccChar, charIsDigit] at h

theorem digit_ccChar {c : Char} (h : charIsDigit c = true) : ccChar c = true := by
  simp [ccChar, h]

theorem ccStrip_mem {cls : Char → Bool} {s : String} {c : Char}
    (h : c ∈ ccStrip cls s) : cls c = true := by
  unfold ccStrip at h
  exact List.of_mem_filter (mem_trimChars h)

theorem ccStrip_eq_self {cls : Char → Bool} {l : List Char}
    (hcls : ∀ c ∈ l, cls c = true)
    (hdot : ∀ c ∈ l, c ≠ '.')
    (hsp : ∀ c ∈ l, jsSpace c = false) :
    ccStrip cls (String.mk l) = l := by
  unfold ccStrip
  have hd : (String.mk l).data = l := rfl
  rw [hd, List.takeWhile_eq_self_iff.mpr (by
        intro c hc
        simpa using hdot c hc),
      List.filter_eq_self.mpr (by intro c hc; exact hcls c hc)]
  exact trimChars_eq_self hsp

end Util

namespace Db2

theorem pad2_mem {c : Char} {l : List Char} (h : c ∈ pad l) : c ∈ l ∨ c = '0' := by
  unfold pad at h
  split at h
  · split at h
    · rcases List.mem_cons.mp h with h0 | hl
      · exact Or.inr h0
      · exact Or.inl hl
    · exact Or.inl h
  · exact Or.inl h

theorem hyph2_mem {c : Char} {l : List Char} (h : c ∈ hyph l) : c ∈ l ∨ c = '-' := by
  unfold hyph at h
  split at h
  · rcases List.mem_append.mp h with h1 | h2
    · exact Or.inl (List.mem_of_mem_take h1)
    · rcases List.mem_cons.mp h2 with h0 | hl
      · exact Or.inr h0
      · exact Or.inl (List.mem_of_mem_drop hl)
  · exact Or.inl h

theorem hyph2_shape (l : List Char) :
    '-' ∈ hyph l ∨ (hyph l = l ∧ (l = [] ∨ '-' ∈ l ∨ l.length ≤ 3)) := by
  unfold hyph
  split
  · left
    exact List.mem_append.mpr (Or.inr (List.mem_cons_self _ _))
  · rename_i hcond
    right
    refine ⟨rfl, ?_⟩
    by_cases h0 : l = []
    · exact Or.inl h0
    · by_cases h1 : '-' ∈ l
      · exact Or.inr (Or.inl h1)
      · right; right
        by_contra h2
        exact hcond ⟨h0, h1, by omega⟩

/-- Characterization of the non-null outputs of the revised database
normalizer: nonempty, over the digits-and-hyphen alphabet, and either
hyphenated or at most three characters long. -/
theorem normalize2_chars {s t : String} (h : normalizeCostCode s = some t) :
    t.data ≠ [] ∧ (∀ c ∈ t.data, ccChar c = true) ∧
      ('-' ∈ t.data ∨ t.data.length ≤ 3) := by
  unfold normalizeCostCode at h
  split at h
  · exact absurd h (by simp)
  · rename_i hne
    have ht : t.data = hyph (pad (ccStrip ccChar s)) := by
      rw [← Option.some.inj h]
    refine ⟨by rw [ht]; exact hne, ?_, ?_⟩
    · intro c hc
      rw [ht] at hc
      rcases hyph2_mem hc with hc1 | hc1
      · rcases pad2_mem hc1 with hc2 | hc2
        · exact ccStrip_mem hc2
        · subst hc2; decide
      · subst hc1; decide
    · rw [ht]
      rcases hyph2_shape (pad (ccStrip ccChar s)) with hh | ⟨heq, hcase⟩
      · exact Or.inl hh
      · rcases hcase with h0 | h1 | h2
        · exact absurd (heq.trans h0) hne
        · exact Or.inl (by rw [heq]; exact h1)
        · exact Or.inr (by rw [heq]; exact h2)

/-- Idempotence of the revised database normalizer. -/
theorem normalize2_idem {s t : String} (h : normalizeCostCode s = some t) :
    normalizeCostCode t = some t := by
  obtain ⟨hne, hcc, hsh⟩ := normalize2_chars h
  have hstrip : ccStrip ccChar t = t.data := by
    have h0 : ccStrip ccChar (String.mk t.data) = t.data :=
      ccStrip_eq_self hcc (fun c hc => ccChar_ne_dot (hcc c hc))
        (fun c hc => ccChar_not_space (hcc c hc))
    exact h0
  have hpad : pad t.data = t.data := by
    unfold pad
    rcases hsh with hm | hlen
    · exact if_neg (fun hand => hand.2.1 hm)
    · exact if_neg (fun hand => absurd hand.2.2 (by omega))
  have hhyph : hyph t.data = t.data := by
    unfold hyph
    rcases hsh with hm | hlen
    · exact if_neg (fun hand => hand.2.1 hm)
    · exact if_neg (fun hand => absurd hand.2.2 (by omega))
  unfold normalizeCostCode
  rw [hstrip, hpad, hhyph, if_neg hne]

end Db2

namespace Db

theorem padDb_mem {c : Char} {l : List Char} (h : c ∈ pad l) : c ∈ l ∨ c = '0' := by
  unfold pad at h
  split at h
  · split at h
    · rcases List.mem_cons.mp h with h0 | hl
      · exact Or.inr h0
      · exact Or.inl hl
    · exact Or.inl h
  · exact Or.inl h

theorem hyphDb_mem {c : Char} {l : List Char} (h : c ∈ hyph l) : c ∈ l ∨ c = '-' := by
  unfold hyph at h
  split at h
  · rcases List.mem_append.mp h with h1 | h2
    · exact Or.inl (List.mem_of_mem_take h1)
    · rcases List.mem_cons.mp h2 with h0 | hl
      · exact Or.inr h0
      · exact Or.inl (List.mem_of_mem_drop hl)
  · exact Or.inl h

theorem hyphDb_shape (l : List Char) :
    '-' ∈ hyph l ∨ (hyph l = l ∧ (l = [] ∨ '-' ∈ l ∨ l.length ≤ 3)) := by
  unfold hyph
  split
  · left
    exact List.mem_append.mpr (Or.inr (List.mem_cons_self _ _))
  · rename_i hcond
    right
    refine ⟨rfl, ?_⟩
    by_cases h0 : l = []
    · exact Or.inl h0
    · by_cases h1 : '-' ∈ l
      · exact Or.inr (Or.inl h1)
      · right; right
        by_contra h2
        exact hcond ⟨h0, h1, by omega⟩

/-- Characterization of the non-null outputs of the `database.js`
normalizer. -/
theorem normalizeDb_chars {s t : String} (h : normalizeCostCode s = some t) :
    t.data ≠ [] ∧ (∀ c ∈ t.data, ccChar c = true) ∧
      ('-' ∈ t.data ∨ t.data.length ≤ 3) := by
  unfold normalizeCostCode at h
  split at h
  · exact absurd h (by simp)
  · rename_i hne
    have ht : t.data = hyph (pad (ccStrip ccChar s)) := by
      rw [← Option.some.inj h]
    refine ⟨by rw [ht]; exact hne, ?_, ?_⟩
    · intro c hc
      rw [ht] at hc
      rcases hyphDb_mem hc with hc1 | hc1
      · rcases padDb_mem hc1 with hc2 | hc2
        · exact ccStrip_mem hc2
        · subst hc2; decide
      · subst hc1; decide
    · rw [ht]
      rcases hyphDb_shape (pad (ccStrip ccChar s)) with hh | ⟨heq, hcase⟩
      · exact Or.inl hh
      · rcases hcase with h0 | h1 | h2
        · exact absurd (heq.trans h0) hne
        · exact Or.inl (by rw [heq]; exact h1)
        · exact Or.inr (by rw [heq]; exact h2)

/-- Idempotence of the `database.js` normalizer. -/
theorem normalizeDb_idem {s t : String} (h : normalizeCostCode s = some t) :
    normalizeCostCode t = some t := by
  obtain ⟨hne, hcc, hsh⟩ := normalizeDb_chars h
  have hstrip : ccStrip ccChar t = t.data :=
    ccStrip_eq_self hcc (fun c hc => ccChar_ne_dot (hcc c hc))
      (fun c hc => ccChar_not_space (hcc c hc))
  have hpad : pad t.data = t.data := by
    unfold pad
    rcases hsh with hm | hlen
    · exact if_neg (fun hand => hand.2.1 hm)
    · exact if_neg (fun hand => absurd hand.2.2.1 (by omega))
  have hhyph : hyph t.data = t.data := by
    unfold hyph
    rcases hsh with hm | hlen
    · exact if_neg (fun hand => hand.2.1 hm)
    · exact if_neg (fun hand => absurd hand.2.2 (by omega))
  unfold normalizeCostCode
  rw [hstrip, hpad, hhyph, if_neg hne]

end Db

namespace Srv

/-- Characterization of the non-null outputs of the server normalizer:
nonempty and digits-only. -/
theorem normalizeSrv_chars {s t : String} (h : normalizeCostCode s = some t) :
    t.data ≠ [] ∧ (∀ c ∈ t.data, charIsDigit c = true) := by
  unfold normalizeCostCode at h
  split at h
  · exact absurd h (by simp)
  · rename_i hne
    have ht : t.data = ccStrip charIsDigit s := by
      rw [← Option.some.inj h]
    refine ⟨by rw [ht]; exact hne, ?_⟩
    intro c hc
    rw [ht] at hc
    exact ccStrip_mem hc

/-- Idempotence of the server normalizer. -/
theorem normalizeSrv_idem {s t : String} (h : normalizeCostCode s = some t) :
    normalizeCostCode t = some t := by
  obtain ⟨hne, hcc⟩ := normalizeSrv_chars h
  have hstrip : ccStrip charIsDigit t = t.data :=
    ccStrip_eq_self hcc
      (fun c hc hdot => absurd (hcc c hc) (by rw [hdot]; decide))
      (fun c hc => notSpace_of_bounds (charIsDigit_bounds (hcc c hc)).1)
  unfold normalizeCostCode
  rw [hstrip, if_neg hne]

end Srv

/-- C8: every `normalizeCostCode` in the repository (revised database layer,
original database layer, server layer) is idempotent: whenever it sends a
raw string to a non-null canonical key, it sends that key to itself. -/
theorem C8_normalize_idempotent (s t : String) :
    (Db2.normalizeCostCode s = some t → Db2.normalizeCostCode t = some t) ∧
    (Db.normalizeCostCode s = some t → Db.normalizeCostCode t = some t) ∧
    (Srv.normalizeCostCode s = some t → Srv.normalizeCostCode t = some t) :=
  ⟨Db2.normalize2_idem, Db.normalizeDb_idem, Srv.normalizeSrv_idem⟩

/-- Witness for C8 at concrete inputs. -/
theorem C8_normalize_idempotent_witness :
    Db2.normalizeCostCode "01-200" = some "01-200" ∧
    Db.normalizeCostCode "01-0240" = some "01-0240" ∧
    Srv.normalizeCostCode "09170" = some "09170" :=
  ⟨(C8_normalize_idempotent "1200" "01-200").1 (by decide),
   (C8_normalize_idempotent "10240" "01-0240").2.1 (by decide),
   (C8_normalize_idempotent "09-170" "09170").2.2 (by decide)⟩

namespace Pdf

/-- `^\s+` with the greedy maximal-munch semantics the surrounding patterns
force (every continuation after `\s+` starts with a non-space character, or
backtracking is modelled explicitly by the caller). -/
def wsPlus (l : List Char) : Option (List Char) :=
  match l with
  | [] => none
  | c :: _ => if jsSpace c then some (l.dropWhile jsSpace) else none

/-- Exactly `n` characters of class `p` (a `{n}` counted atom). -/
def takeCount : Nat → (Char → Bool) → List Char → Option (List Char × List Char)
  | 0, _, l => some ([], l)
  | _ + 1, _, [] => none
  | n + 1, p, c :: t =>
      if p c then (takeCount n p t).map (fun x => (c :: x.1, x.2)) else none

/-- `\d{2}\/\d{2}\/\d{2}`: capture and rest. -/
def dateAt (l : List Char) : Option (List Char × List Char) :=
  match takeCount 2 charIsDigit l with
  | some (d1, r1) =>
      match r1 with
      | '/' :: r2 =>
          match takeCount 2 charIsDigit r2 with
          | some (d2, r3) =>
              match r3 with
              | '/' :: r4 =>
                  match takeCount 2 charIsDigit r4 with
                  | some (d3, r5) => some (d1 ++ '/' :: d2 ++ '/' :: d3, r5)
                  | none => none
              | _ => none
          | none => none
      | _ => none
  | none => none

/-- The `[a-zA-Z\s\.'-]` class of the employee-name group. -/
def nameCls (c : Char) : Bool :=
  charIsUpper c || charIsLower c || jsSpace c || c = '.' || c = Char.ofNat 39 || c = '-'

/-- Lazy scan for `([A-Z][a-zA-Z\s\.'-]+?)\s+(date)`: after each body
character the continuation is tried before extending, mirroring `+?`. -/
def nameScan (acc : List Char) : List Char → Option (List Char × List Char)
  | [] => none
  | c :: rs =>
      if nameCls c then
        match wsPlus rs with
        | some r2 =>
            match dateAt r2 with
            | some (d, _) => some (acc ++ [c], d)
            | none => nameScan (acc ++ [c]) rs
        | none => nameScan (acc ++ [c]) rs
  else none

/-- `line.match(/^(\d{4})\s+([A-Z][a-zA-Z\s\.'-]+?)\s+(\d{2}\/\d{2}\/\d{2})/)`:
the employee-header pattern of `parsePayrollPDF`. -/
def employeeCapture (s : String) : Option (String × String × String) :=
  match takeCount 4 charIsDigit s.data with
  | some (loc, r1) =>
      match wsPlus r1 with
      | some r2 =>
          match r2 with
          | c :: rs =>
              if charIsUpper c then
                match nameScan [] rs with
                | some (body, d) => some (String.mk loc, String.mk (c :: body), String.mk d)
                | none => none
              else none
          | [] => none
      | none => none
  | none => none

/-- `line.match(/^\s+(\d{2}\/\d{2}\/\d{2})\s*$/)`: the standalone-date
pattern. -/
def dateOnlyCapture (s : String) : Option String :=
  match wsPlus s.data with
  | some r =>
      match dateAt r with
      | some (d, rest) => if rest.dropWhile jsSpace = [] then some (String.mk d) else none
      | none => none
  | none => none

/-- Lower-case an ASCII letter (the `i` flag of the total-line patterns). -/
def lowerChar (c : Char) : Char :=
  if charIsUpper c then Char.ofNat (c.toNat + 32) else c

/-- Case-insensitive literal match (pattern given lower-case). -/
def matchCIAt : List Char → List Char → Option (List Char)
  | [], l => some l
  | _ :: _, [] => none
  | p :: ps, c :: cs => if lowerChar c = p then matchCIAt ps cs else none

/-- `/total\s+hours/i` anchored at the current position. -/
def totalHoursAt (l : List Char) : Bool :=
  match matchCIAt "total".data l with
  | some r =>
      match wsPlus r with
      | some r2 => (matchCIAt "hours".data r2).isSome
      | none => false
  | none => false

/-- `/grand\s+totals?/i` anchored at the current position (the optional
trailing `s` cannot affect whether a match exists). -/
def grandTotalAt (l : List Char) : Bool :=
  match matchCIAt "grand".data l with
  | some r =>
      match wsPlus r with
      | some r2 => (matchCIAt "total".data r2).isSome
      | none => false
  | none => false

/-- Unanchored regex search: try the test at every suffix. -/
def search (f : List Char → Bool) : List Char → Bool
  | [] => f []
  | c :: t => f (c :: t) || search f t

/-- `/total\s+hours/i.test(line) || /grand\s+totals?/i.test(line)`. -/
def isTotalLine (s : String) : Bool :=
  search totalHoursAt s.data || search grandTotalAt s.data

/-- The `[\d.,]` class of the numeric columns. -/
def numTokCls (c : Char) : Bool := charIsDigit c || c = '.' || c = ','

/-- First match of `/([\d]+[\d.,]*)/g`: the maximal digit-dot-comma run
starting at the first digit of the line. -/
def firstNumTok : List Char → Option (List Char)
  | [] => none
  | c :: t => if charIsDigit c then some ((c :: t).takeWhile numTokCls) else firstNumTok t

/-- `parseNumber` from `pdfParser.js` (lines 119-123): strip everything but
digits and dots, `parseFloat`, NaN to 0. -/
def parseNumber (s : String) : ℚ :=
  (parseFloatPre (s.data.filter (fun c => charIsDigit c || c = '.'))).getD 0

/-- `[A-Z]{2}\d{2}[A-Z][A-Z0-9]`: the certified-class atom. -/
def certAt (l : List Char) : Option (List Char × List Char) :=
  match takeCount 2 charIsUpper l with
  | some (a, r1) =>
      match takeCount 2 charIsDigit r1 with
      | some (b, r2) =>
          match r2 with
          | c :: r3 =>
              if charIsUpper c then
                match r3 with
                | d :: r4 =>
                    if charIsUpper d || charIsDigit d then some (a ++ b ++ [c, d], r4)
                    else none
                | [] => none
              else none
          | [] => none
      | none => none
  | none => none

/-- `([A-Z]\d?)\s+`: greedy optional digit, then mandatory whitespace
(consumed); mirrors the only backtracking the atom allows. -/
def classTok (l : List Char) : Option (List Char × List Char) :=
  match l with
  | c :: rest =>
      if charIsUpper c then
        match rest with
        | d :: rs =>
            if charIsDigit d then
              match wsPlus rs with
              | some r => some ([c, d], r)
              | none => none
            else
              match wsPlus rest with
              | some r => some ([c], r)
              | none => none
        | [] => none
      else none
  | [] => none

/-- `([\d.,]+)` followed by (unconsumed) whitespace: a numeric column.
Shorter matches would leave a class character before the `\s+`, so the
maximal run is the only candidate. -/
def numTokRaw (l : List Char) : Option (List Char × List Char) :=
  let t := l.takeWhile numTokCls
  if t = [] then none
  else
    match l.drop t.length with
    | c :: r => if jsSpace c then some (t, c :: r) else none
    | [] => none

/-- `([\d.,]+)\s+`: numeric column with its separator consumed. -/
def numTokWs (l : List Char) : Option (List Char × List Char) :=
  match numTokRaw l with
  | some (t, r) => some (t, r.dropWhile jsSpace)
  | none => none

/-- `\S+\s+`: the placeholder column (one whole token). -/
def solidTok (l : List Char) : Option (List Char × List Char) :=
  let t := l.takeWhile (fun c => !(jsSpace c))
  if t = [] then none
  else
    match l.drop t.length with
    | c :: r => if jsSpace c then some (t, (c :: r).dropWhile jsSpace) else none
    | [] => none

/-- `([\d]{1,2}-[\d]{2,5})` matched at the current position, greedily. -/
def codeTail (pre : List Char) (l : List Char) : Option (List Char) :=
  let ds := (l.takeWhile charIsDigit).take 5
  if 2 ≤ ds.length then some (pre ++ '-' :: ds) else none

/-- Entry point of the cost-code atom: one or (preferred) two digits, a
hyphen, then two to five digits. -/
def codeAt (l : List Char) : Option (List Char) :=
  match l with
  | c0 :: r0 =>
      if charIsDigit c0 then
        match r0 with
        | c1 :: r1 =>
            if charIsDigit c1 then
              match r1 with
              | '-' :: r2 => codeTail [c0, c1] r2
              | _ => none
            else if c1 = '-' then codeTail [c0] r1
            else none
        | [] => none
      else none
  | [] => none

/-- `\s+(code)` after the lazy description group. -/
def wsCodeAt (l : List Char) : Option (List Char) :=
  match wsPlus l with
  | some r => codeAt r
  | none => none

/-- Lazy `(.+?)` scan: after each description character, try `\s+(code)`
before extending. -/
def hscan (acc : List Char) : List Char → Option (List Char × List Char)
  | [] => none
  | c :: rs =>
      if dotCls c then
        match wsCodeAt rs with
        | some code => some (acc ++ [c], code)
        | none => hscan (acc ++ [c]) rs
      else none

/-- Outer `\s+` of `\s+(.+?)\s+(code)`, greedy with backtracking: try the
maximal space run first, then shorter ones (the description may then start
with space characters). -/
def tailLoop (l : List Char) : Nat → Option (List Char × List Char)
  | 0 => none
  | w + 1 =>
      match hscan [] (l.drop (w + 1)) with
      | some x => some x
      | none => tailLoop l w

/-- `\s+(.+?)\s+([\d]{1,2}-[\d]{2,5})`: description and cost code of the
strict entry pattern, starting right after the third numeric column. -/
def tailHI (l : List Char) : Option (List Char × List Char) :=
  tailLoop l (l.takeWhile jsSpace).length

/-- `\s+(.+)` of the loose (no-cost-code) entry pattern. -/
def tailLoopNC (l : List Char) : Nat → Option (List Char)
  | 0 => none
  | w + 1 =>
      match (l.drop (w + 1)).takeWhile dotCls with
      | [] => tailLoopNC l w
      | c :: t => some (c :: t)

/-- Description group of the loose pattern. -/
def tailNC (l : List Char) : Option (List Char) :=
  tailLoopNC l (l.takeWhile jsSpace).length

/-- The captures shared by the strict and loose entry patterns, up to the
third numeric column. -/
structure PreCaps where
  payClass : List Char
  payId : List Char
  cert : List Char
  hoursRaw : List Char
  rateRaw : List Char
  rest : List Char
  deriving DecidableEq

/-- `^\s+([A-Z]\d?)\s+(\d{3})\s+([A-Z]{2}\d{2}[A-Z][A-Z0-9])\s+\S+\s+
([\d.,]+)\s+([\d.,]+)\s+[\d.,]+`: the deterministic prefix both entry
patterns share. -/
def entryPre (l : List Char) : Option PreCaps :=
  match wsPlus l with
  | none => none
  | some r0 =>
      match classTok r0 with
      | none => none
      | some (pc, r1) =>
          match takeCount 3 charIsDigit r1 with
          | none => none
          | some (pid, r2) =>
              match wsPlus r2 with
              | none => none
              | some r3 =>
                  match certAt r3 with
                  | none => none
                  | some (cert, r4) =>
                      match wsPlus r4 with
                      | none => none
                      | some r5 =>
                          match solidTok r5 with
                          | none => none
                          | some (_, r6) =>
                              match numTokWs r6 with
                              | none => none
                              | some (hrs, r7) =>
                                  match numTokWs r7 with
                                  | none => none
                                  | some (rate, r8) =>
                                      match numTokRaw r8 with
                                      | none => none
                                      | some (_, r9) => some ⟨pc, pid, cert, hrs, rate, r9⟩

/-- Captures of a matched time-entry line. -/
structure EntryCaps where
  payClass : String
  payId : String
  certClass : String
  hoursRaw : String
  rateRaw : String
  desc : String
  code : Option String
  deriving DecidableEq

/-- The strict entry pattern (`entryMatch` in `parsePayrollPDF`). -/
def entryStrict (l : List Char) : Option EntryCaps :=
  match entryPre l with
  | none => none
  | some pre =>
      match tailHI pre.rest with
      | some (desc, code) =>
          some ⟨String.mk pre.payClass, String.mk pre.payId, String.mk pre.cert,
                String.mk pre.hoursRaw, String.mk pre.rateRaw, String.mk desc,
                some (String.mk code)⟩
      | none => none

/-- The loose entry pattern (`entryNoCodeMatch`), tried only when the strict
one fails; its cost code is `null`. -/
def entryLoose (l : List Char) : Option EntryCaps :=
  match entryPre l with
  | none => none
  | some pre =>
      match tailNC pre.rest with
      | some desc =>
          some ⟨String.mk pre.payClass, String.mk pre.payId, String.mk pre.cert,
                String.mk pre.hoursRaw, String.mk pre.rateRaw, String.mk desc, none⟩
      | none => none

/-- `entryMatch || entryNoCodeMatch`. -/
def entryCapture (s : String) : Option EntryCaps :=
  match entryStrict s.data with
  | some caps => some caps
  | none => entryLoose s.data

/-- The `looksLikeEntry` heuristic body
(`/[A-Z]\d?\s+\d{3}\s+[A-Z]{2}\d{2}[A-Z][A-Z0-9]/`) at one position. -/
def lleAfterClass (l : List Char) : Bool :=
  match wsPlus l with
  | some r =>
      match takeCount 3 charIsDigit r with
      | some (_, r2) =>
          match wsPlus r2 with
          | some r3 => (certAt r3).isSome
          | none => false
      | none => false
  | none => false

/-- `looksLikeEntry` test at one position: `[A-Z]` then optional digit. -/
def lleAt (l : List Char) : Bool :=
  match l with
  | c :: rest =>
      charIsUpper c &&
        ((match rest with
          | d :: rs => charIsDigit d && lleAfterClass rs
          | [] => false) ||
         lleAfterClass rest)
  | [] => false

/-- `/[A-Z]\d?\s+\d{3}\s+[A-Z]{2}\d{2}[A-Z][A-Z0-9]/.test(line)`. -/
def looksLikeEntry (s : String) : Bool := search lleAt s.data

/-- `/\d+\.\d{1,2}/` at one position: digits, a dot, then a digit. -/
def hasHoursAt (l : List Char) : Bool :=
  match l.takeWhile charIsDigit with
  | [] => false
  | ds =>
      match l.drop ds.length with
      | '.' :: c :: _ => charIsDigit c
      | _ => false

/-- `/\d+\.\d{1,2}/.test(line)`. -/
def hasHours (s : String) : Bool := search hasHoursAt s.data

/-- The trailing-minus test on the raw hours capture: the pattern
`-\s*$` (a minus sign, optional whitespace, end of string). -/
def hoursNegative (s : String) : Bool :=
  match s.data.reverse.dropWhile jsSpace with
  | c :: _ => c = '-'
  | [] => false

/-- `parseInt` on the year token (radix 10): skip leading whitespace, take
an optional sign and then the digit prefix; no digits is NaN (`none`). -/
def parseIntJS (l : List Char) : Option Int :=
  if (l.dropWhile jsSpace).head? = some '-' then
    if (l.dropWhile jsSpace).tail.takeWhile charIsDigit = [] then none
    else some (-(digitsVal ((l.dropWhile jsSpace).tail.takeWhile charIsDigit) : Int))
  else if (l.dropWhile jsSpace).head? = some '+' then
    if (l.dropWhile jsSpace).tail.takeWhile charIsDigit = [] then none
    else some ((digitsVal ((l.dropWhile jsSpace).tail.takeWhile charIsDigit) : Int))
  else
    if (l.dropWhile jsSpace).takeWhile charIsDigit = [] then none
    else some ((digitsVal ((l.dropWhile jsSpace).takeWhile charIsDigit) : Int))

/-- `parseInt(year) < 50` (false for NaN). -/
def intLt50 (o : Option Int) : Bool :=
  match o with
  | some n => decide (n < 50)
  | none => false

/-- `String.prototype.padStart(2, '0')`. -/
def padStart2 (l : List Char) : List Char :=
  if l.length < 2 then List.replicate (2 - l.length) '0' ++ l else l

/-- `convertDate` from `pdfParser.js` (lines 128-132): `MM/DD/YY` to
`YYYY-MM-DD` with the `< 50` century pivot; missing split components are the
string `undefined`, as produced by JS template interpolation. -/
def convertDate (s : String) : String :=
  let parts := splitChar '/' s.data
  let month := (parts.get? 0).getD ("undefined".data)
  let day := (parts.get? 1).getD ("undefined".data)
  let year := (parts.get? 2).getD ("undefined".data)
  let fullYear := if intLt50 (parseIntJS year) then '2' :: '0' :: year else '1' :: '9' :: year
  String.mk (fullYear ++ '-' :: padStart2 month ++ '-' :: padStart2 day)

/-- One parsed `TimeEntry` record (parser output shape). -/
structure TimeEntry where
  employee : String
  payId : String
  payClass : String
  unionLocal : Option String
  certClass : String
  date : String
  hours : ℚ
  rate : ℚ
  costCode : Option String
  jobDesc : String
  deriving DecidableEq

/-- The mutable scan state of `parsePayrollPDF`'s line loop, with the
accumulated outputs. -/
structure ParseState where
  entries : List TimeEntry
  ignored : List String
  totals : List ℚ
  curEmployee : Option String
  curUnion : Option String
  curDate : Option String
  deriving DecidableEq

def initState : ParseState := ⟨[], [], [], none, none, none⟩

/-- The reported-totals block of the loop body (it does not `continue`, so
it composes with the entry matching below it). -/
def totalsUpd (st : ParseState) (line : String) : ParseState :=
  if isTotalLine line then
    match firstNumTok line.data with
    | some tok =>
        if 0 < parseNumber (String.mk tok) then
          { st with totals := st.totals ++ [parseNumber (String.mk tok)] }
        else st
    | none => st
  else st

/-- One iteration of the `for` loop of `parsePayrollPDF` (lines 21-104):
classify the line as employee header, standalone date, (possibly) reported
total, time entry, or noise, and update the state. JS truthiness of
`currentEmployee`/`currentDate` is `Option.isSome` here: both strings are
nonempty whenever set (the name starts with `[A-Z]`, the date has a fixed
shape). -/
def processLine (st : ParseState) (line : String) : ParseState :=
  if line = "" then st
  else
    match employeeCapture line with
    | some (loc, name, date) =>
        { st with curUnion := some loc, curEmployee := some (trimStr name),
                  curDate := some date }
    | none =>
        match dateOnlyCapture line with
        | some d => { st with curDate := some d }
        | none =>
            let st1 := totalsUpd st line
            match entryCapture line with
            | some caps =>
                match st1.curEmployee, st1.curDate with
                | some emp, some date =>
                    if hoursNegative caps.hoursRaw then
                      { st1 with ignored :=
                          st1.ignored ++ [trimStr line ++ " (ignored negative hours)"] }
                    else
                      { st1 with entries := st1.entries ++
                          [{ employee := emp, payId := caps.payId,
                             payClass := caps.payClass, unionLocal := st1.curUnion,
                             certClass := caps.certClass, date := convertDate date,
                             hours := if hoursNegative caps.hoursRaw then 0
                                      else parseNumber caps.hoursRaw,
                             rate := parseNumber caps.rateRaw,
                             costCode := caps.code, jobDesc := trimStr caps.desc }] }
                | _, _ =>
                    if looksLikeEntry line && hasHours line then
                      { st1 with ignored := st1.ignored ++ [trimStr line] }
                    else st1
            | none =>
                if looksLikeEntry line && hasHours line then
                  { st1 with ignored := st1.ignored ++ [trimStr line] }
                else st1

/-- The summary block of a `ParseResult`. -/
structure Summary where
  parsedHours : ℚ
  detectedTotalHours : Option ℚ
  ignoredLines : List String
  deriving DecidableEq

/-- A `ParseResult`. -/
structure ParseResult where
  entries : List TimeEntry
  summary : Summary
  deriving DecidableEq

/-- `Math.max(...detectedTotals)`, `null` on the empty list. -/
def jsMaxQ : List ℚ → Option ℚ
  | [] => none
  | h :: t => some (t.foldl max h)

/-- `parsePayrollPDF` on a pre-extracted line sequence: fold the loop body
over the lines, then assemble entries and summary. -/
def parsePayrollLines (lines : List String) : ParseResult :=
  let fin := lines.foldl processLine initState
  ⟨fin.entries,
   ⟨(fin.entries.map (fun e => e.hours)).sum, jsMaxQ fin.totals, fin.ignored⟩⟩

end Pdf

namespace Pdf

theorem wsPlus_some {l r : List Char} (h : wsPlus l = some r) :
    ∃ c t, l = c :: t ∧ jsSpace c = true := by
  cases l with
  | nil => simp [wsPlus] at h
  | cons c t =>
      cases hsp : jsSpace c with
      | false => simp [wsPlus, hsp] at h
      | true => exact ⟨c, t, rfl, hsp⟩

theorem wsPlus_drop {l r : List Char} (h : wsPlus l = some r) :
    r = l.dropWhile jsSpace := by
  cases l with
  | nil => simp [wsPlus] at h
  | cons c t =>
      cases hsp : jsSpace c with
      | false => simp [wsPlus, hsp] at h
      | true =>
          simp only [wsPlus, hsp, if_pos] at h
          exact (Option.some.inj h).symm

theorem takeCount_head {n : Nat} {p : Char → Bool} {l : List Char}
    {x : List Char × List Char} (h : takeCount (n + 1) p l = some x) :
    ∃ c t, l = c :: t ∧ p c = true := by
  cases l with
  | nil => simp [takeCount] at h
  | cons c t =>
      cases hp : p c with
      | false => simp [takeCount, hp] at h
      | true => exact ⟨c, t, rfl, hp⟩

theorem classTok_head {l : List Char} {x : List Char × List Char}
    (h : classTok l = some x) :
    ∃ c t, l = c :: t ∧ charIsUpper c = true := by
  cases l with
  | nil => simp [classTok] at h
  | cons c t =>
      cases hu : charIsUpper c with
      | false => simp [classTok, hu] at h
      | true => exact ⟨c, t, rfl, hu⟩

theorem dateAt_head {l : List Char} {x : List Char × List Char}
    (h : dateAt l = some x) :
    ∃ c t, l = c :: t ∧ charIsDigit c = true := by
  unfold dateAt at h
  split at h
  · rename_i d1r heq
    exact takeCount_head heq
  · exact absurd h (by simp)

theorem entryPre_head {l : List Char} {pre : PreCaps} (h : entryPre l = some pre) :
    (∃ c t, l = c :: t ∧ jsSpace c = true) ∧
    (∃ d ts, l.dropWhile jsSpace = d :: ts ∧ charIsUpper d = true) := by
  unfold entryPre at h
  split at h
  · exact absurd h (by simp)
  · rename_i r0 heq
    split at h
    · exact absurd h (by simp)
    · rename_i pcr heq2
      have hdrop := wsPlus_drop heq
      obtain ⟨d, ts, hr0, hup⟩ := classTok_head heq2
      exact ⟨wsPlus_some heq, ⟨d, ts, by rw [← hdrop]; exact hr0, hup⟩⟩

theorem entryCapture_head {s : String} {caps : EntryCaps}
    (h : entryCapture s = some caps) :
    (∃ c t, s.data = c :: t ∧ jsSpace c = true) ∧
    (∃ d ts, s.data.dropWhile jsSpace = d :: ts ∧ charIsUpper d = true) := by
  unfold entryCapture at h
  split at h
  · rename_i caps0 heq
    unfold entryStrict at heq
    split at heq
    · exact absurd heq (by simp)
    · rename_i pre hpre
      exact entryPre_head hpre
  · rename_i hstrict
    unfold entryLoose at h
    split at h
    · exact absurd h (by simp)
    · rename_i pre hpre
      exact entryPre_head hpre

theorem employeeCapture_head {s : String} {x : String × String × String}
    (h : employeeCapture s = some x) :
    ∃ c t, s.data = c :: t ∧ charIsDigit c = true := by
  unfold employeeCapture at h
  split at h
  · rename_i locr heq
    exact takeCount_head heq
  · exact absurd h (by simp)

theorem dateOnlyCapture_head {s : String} {d : String}
    (h : dateOnlyCapture s = some d) :
    ∃ c t, s.data.dropWhile jsSpace = c :: t ∧ charIsDigit c = true := by
  unfold dateOnlyCapture at h
  split at h
  · rename_i r heq
    have hdrop := wsPlus_drop heq
    split at h
    · rename_i dr heq2
      obtain ⟨c, t, hr, hd⟩ := dateAt_head heq2
      exact ⟨c, t, by rw [← hdrop]; exact hr, hd⟩
    · exact absurd h (by simp)
  · exact absurd h (by simp)

theorem space_not_digit {c : Char} (h : jsSpace c = true) : charIsDigit c = false := by
  have hb : c.toNat = 32 ∨ (9 ≤ c.toNat ∧ c.toNat ≤ 13) := by
    simpa [jsSpace, Bool.or_eq_true, Bool.and_eq_true, decide_eq_true_eq] using h
  simp only [charIsDigit, Bool.and_eq_false_iff, decide_eq_false_iff_not]
  omega

theorem upper_not_digit {c : Char} (h : charIsUpper c = true) : charIsDigit c = false := by
  have hb : 65 ≤ c.toNat ∧ c.toNat ≤ 90 := by
    simpa [charIsUpper, Bool.and_eq_true, decide_eq_true_eq] using h
  simp only [charIsDigit, Bool.and_eq_false_iff, decide_eq_false_iff_not]
  omega

theorem totalsUpd_frame (st : ParseState) (line : String) :
    (totalsUpd st line).entries = st.entries ∧
    (totalsUpd st line).ignored = st.ignored ∧
    (totalsUpd st line).curEmployee = st.curEmployee ∧
    (totalsUpd st line).curDate = st.curDate ∧
    (totalsUpd st line).curUnion = st.curUnion := by
  unfold totalsUpd
  split
  · split
    · split
      · exact ⟨rfl, rfl, rfl, rfl, rfl⟩
      · exact ⟨rfl, rfl, rfl, rfl, rfl⟩
    · exact ⟨rfl, rfl, rfl, rfl, rfl⟩
  · exact ⟨rfl, rfl, rfl, rfl, rfl⟩

end Pdf

/-- C3, amended: a line matching a time-entry pattern processed while no
employee header has been seen emits no entry, but it is not traceless: it
falls through to the noise heuristic, which appends the trimmed line to the
ignored-lines list exactly when the heuristic
(`looksLikeEntry && hasHours`) accepts the line. -/
theorem C3_entry_before_header (st : Pdf.ParseState) (line : String)
    (caps : Pdf.EntryCaps)
    (hemp : st.curEmployee = none) (hcap : Pdf.entryCapture line = some caps) :
    (Pdf.processLine st line).entries = st.entries ∧
    (Pdf.processLine st line).ignored = st.ignored ++
      (if Pdf.looksLikeEntry line && Pdf.hasHours line then [trimStr line] else []) := by
  obtain ⟨⟨c, t, hdata, hsp⟩, ⟨d, ts, hdrop, hup⟩⟩ := Pdf.entryCapture_head hcap
  have hne : ¬ (line = "") := by
    intro h0
    rw [h0] at hdata
    simp at hdata
  have hempcap : Pdf.employeeCapture line = none := by
    cases hec : Pdf.employeeCapture line with
    | none => rfl
    | some x =>
        obtain ⟨c2, t2, hdata2, hdig⟩ := Pdf.employeeCapture_head hec
        rw [hdata] at hdata2
        have hc : c = c2 := (List.cons.inj hdata2).1
        rw [← hc] at hdig
        exact absurd hdig (by simp [Pdf.space_not_digit hsp])
  have hdatecap : Pdf.dateOnlyCapture line = none := by
    cases hdc : Pdf.dateOnlyCapture line with
    | none => rfl
    | some x =>
        obtain ⟨c2, t2, hdrop2, hdig⟩ := Pdf.dateOnlyCapture_head hdc
        rw [hdrop] at hdrop2
        have hc : d = c2 := (List.cons.inj hdrop2).1
        rw [← hc] at hdig
        exact absurd hdig (by simp [Pdf.upper_not_digit hup])
  obtain ⟨hte, hti, htE, htD, htU⟩ := Pdf.totalsUpd_frame st line
  have h1 : (Pdf.totalsUpd st line).curEmployee = none := by rw [htE]; exact hemp
  unfold Pdf.processLine
  rw [if_neg hne]
  simp only [hempcap, hdatecap, hcap, h1]
  by_cases hh : (Pdf.looksLikeEntry line && Pdf.hasHours line) = true
  · simp only [hh, if_pos, if_true, hte, hti]
    exact ⟨trivial, trivial⟩
  · simp only [Bool.not_eq_true] at hh
    simp only [hh, if_false, Bool.false_eq_true, hte, hti, List.append_nil]
    exact ⟨trivial, trivial⟩

/-- Sample employee-header line from the source's comment. -/
def hdrLine : String := "4086       Arthur E Stefanick Jr             10/24/23"

/-- Sample time-entry line from the source's comment. -/
def entLine : String := "      J   841       TA01J1       0                 2.50      31.68000           79.207552.  Cuy Fal Bld 1 1st Fl             09-170"

/-- `entLine` with a trailing minus on its hours column. -/
def negLine : String := "      J   841       TA01J1       0                 2.50-      31.68000           79.207552.  Cuy Fal Bld 1 1st Fl             09-170"

/-- The captures the entry patterns produce on `entLine`. -/
def entCaps : Pdf.EntryCaps :=
  ⟨"J", "841", "TA01J1", "2.50", "31.68000", "Cuy Fal Bld 1 1st Fl", some "09-170"⟩

/-- C3, counterexample: a document consisting of a single valid time-entry
line (no header ever seen) produces no entry, but the line is NOT dropped
without trace: the noise heuristic appends it (trimmed) to the ignored-lines
diagnostic list, contradicting the claim that it contributes nothing
there. -/
theorem C3_entry_before_header_counterexample :
    Pdf.entryCapture entLine = some entCaps ∧
    (Pdf.parsePayrollLines [entLine]).entries = [] ∧
    (Pdf.parsePayrollLines [entLine]).summary.ignoredLines = [trimStr entLine] ∧
    (Pdf.parsePayrollLines [entLine]).summary.ignoredLines.length = 1 := by
  refine ⟨by decide, by decide, by decide, by decide⟩

/-- Witness for C3 at a concrete state and line. -/
theorem C3_entry_before_header_witness :
    (Pdf.processLine Pdf.initState entLine).entries = Pdf.initState.entries ∧
    (Pdf.processLine Pdf.initState entLine).ignored = Pdf.initState.ignored ++
      (if Pdf.looksLikeEntry entLine && Pdf.hasHours entLine then [trimStr entLine]
       else []) :=
  C3_entry_before_header Pdf.initState entLine entCaps rfl (by decide)

namespace Util

theorem parseFloatPre_nonneg {l : List Char} {q : ℚ} (h : parseFloatPre l = some q) :
    0 ≤ q := by
  unfold parseFloatPre at h
  split at h
  · split at h
    · exact absurd h (by simp)
    · rw [← Option.some.inj h]
      positivity
  · split at h
    · exact absurd h (by simp)
    · rw [← Option.some.inj h]
      positivity

end Util

namespace Pdf

theorem parseNumber_nonneg (s : String) : 0 ≤ parseNumber s := by
  unfold parseNumber
  cases hp : parseFloatPre (s.data.filter (fun c => charIsDigit c || c = '.')) with
  | none => simp
  | some q => simpa using parseFloatPre_nonneg hp

theorem numTokRaw_take {l t r : List Char} (h : numTokRaw l = some (t, r)) :
    t = l.takeWhile numTokCls := by
  simp only [numTokRaw] at h
  split at h
  · exact absurd h (by simp)
  · split at h
    · split at h
      · exact ((Prod.mk.injEq _ _ _ _).mp (Option.some.inj h)).1.symm
      · exact absurd h (by simp)
    · exact absurd h (by simp)

theorem numTokWs_chars {l t r : List Char} (h : numTokWs l = some (t, r)) :
    ∀ c ∈ t, numTokCls c = true := by
  unfold numTokWs at h
  split at h
  · rename_i t0 r0 heq
    have ht := ((Prod.mk.injEq _ _ _ _).mp (Option.some.inj h)).1
    intro c hc
    rw [← ht] at hc
    rw [numTokRaw_take heq] at hc
    exact List.mem_takeWhile_imp hc
  · exact absurd h (by simp)

theorem entryPre_hoursRaw {l : List Char} {pre : PreCaps} (h : entryPre l = some pre) :
    ∀ c ∈ pre.hoursRaw, numTokCls c = true := by
  unfold entryPre at h
  split at h
  · exact absurd h (by simp)
  · split at h
    · exact absurd h (by simp)
    · split at h
      · exact absurd h (by simp)
      · split at h
        · exact absurd h (by simp)
        · split at h
          · exact absurd h (by simp)
          · split at h
            · exact absurd h (by simp)
            · split at h
              · exact absurd h (by simp)
              · split at h
                · exact absurd h (by simp)
                · rename_i hrs r7 heqE
                  split at h
                  · exact absurd h (by simp)
                  · split at h
                    · exact absurd h (by simp)
                    · have hpre := Option.some.inj h
                      rw [← hpre]
                      exact numTokWs_chars heqE
  
theorem entryCapture_hoursRaw {s : String} {caps : EntryCaps}
    (h : entryCapture s = some caps) :
    ∀ c ∈ caps.hoursRaw.data, numTokCls c = true := by
  unfold entryCapture at h
  split at h
  · rename_i caps0 heq
    have hc0 := Option.some.inj h
    subst hc0
    unfold entryStrict at heq
    split at heq
    · exact absurd heq (by simp)
    · rename_i pre hpre
      split at heq
      · rename_i dc heq2
        have hcaps := Option.some.inj heq
        rw [← hcaps]
        exact entryPre_hoursRaw hpre
      · exact absurd heq (by simp)
  · unfold entryLoose at h
    split at h
    · exact absurd h (by simp)
    · rename_i pre hpre
      split at h
      · rename_i dsc heq2
        have hcaps := Option.some.inj h
        rw [← hcaps]
        exact entryPre_hoursRaw hpre
      · exact absurd h (by simp)

theorem hoursNegative_of_numTok {s : String}
    (h : ∀ c ∈ s.data, numTokCls c = true) : hoursNegative s = false := by
  unfold hoursNegative
  split
  · rename_i c cs heq
    have hc : c ∈ s.data := by
      have h1 : c ∈ s.data.reverse.dropWhile jsSpace := by
        rw [heq]; exact List.mem_cons_self c cs
      exact List.mem_reverse.mp (mem_dropWhile h1)
    have hnum := h c hc
    have hcne : c ≠ '-' := by
      intro hcEq
      rw [hcEq] at hnum
      exact absurd hnum (by decide)
    simp [hcne]
  · rfl

theorem processLine_hours {st : ParseState} {line : String}
    (hinv : ∀ e ∈ st.entries, 0 ≤ e.hours) :
    ∀ e ∈ (processLine st line).entries, 0 ≤ e.hours := by
  intro e he
  simp only [processLine] at he
  split at he
  · exact hinv e he
  · split at he
    · exact hinv e he
    · split at he
      · exact hinv e he
      · split at he
        · rename_i caps hcaps
          split at he
          · rename_i emp date hemp hdate
            split at he
            · exact hinv e ((totalsUpd_frame st line).1 ▸ he)
            · rename_i hneg
              rcases List.mem_append.mp he with h1 | h1
              · exact hinv e ((totalsUpd_frame st line).1 ▸ h1)
              · have he2 := List.mem_singleton.mp h1
                rw [he2]
                exact parseNumber_nonneg _
          · split at he
            · exact hinv e ((totalsUpd_frame st line).1 ▸ he)
            · exact hinv e ((totalsUpd_frame st line).1 ▸ he)
        · split at he
          · exact hinv e ((totalsUpd_frame st line).1 ▸ he)
          · exact hinv e ((totalsUpd_frame st line).1 ▸ he)

theorem foldl_hours_nonneg (lines : List String) :
    ∀ st : ParseState, (∀ e ∈ st.entries, 0 ≤ e.hours) →
      ∀ e ∈ (lines.foldl processLine st).entries, 0 ≤ e.hours := by
  induction lines with
  | nil => intro st hst; simpa using hst
  | cons l ls ih => intro st hst; exact ih _ (processLine_hours hst)

end Pdf

/-- C4, amended: every emitted entry has nonnegative hours; moreover the
trailing-minus diversion branch is dead code: the hours capture of both
entry patterns draws from the class `[\d.,]`, which cannot contain a minus
sign, so `hoursIsNegative` is false for every line either pattern accepts
(and hence the "(ignored negative hours)" annotation is never produced; a
line whose hours column carries a trailing minus simply fails the entry
patterns and reaches the noise heuristic instead). -/
theorem C4_hours_invariant (lines : List String) :
    (∀ e ∈ (Pdf.parsePayrollLines lines).entries, 0 ≤ e.hours) ∧
    (∀ (line : String) (caps : Pdf.EntryCaps),
        Pdf.entryCapture line = some caps →
        Pdf.hoursNegative caps.hoursRaw = false) := by
  constructor
  · intro e he
    exact Pdf.foldl_hours_nonneg lines Pdf.initState (by intro e2 he2; simp [Pdf.initState] at he2) e he
  · intro line caps hcap
    exact Pdf.hoursNegative_of_numTok (Pdf.entryCapture_hoursRaw hcap)

/-- The single entry parsed from `[hdrLine, entLine]`. -/
def entOut : Pdf.TimeEntry :=
  ⟨"Arthur E Stefanick Jr", "841", "J", some "4086", "TA01J1", "2023-10-24",
   5 / 2, 792 / 25, some "09-170", "Cuy Fal Bld 1 1st Fl"⟩

set_option maxRecDepth 100000 in
/-- Witness for C4 at a concrete document and a concrete captured line. -/
theorem C4_hours_invariant_witness :
    0 ≤ entOut.hours ∧ Pdf.hoursNegative entCaps.hoursRaw = false :=
  ⟨(C4_hours_invariant [hdrLine, entLine]).1 entOut (by
      have h : (Pdf.parsePayrollLines [hdrLine, entLine]).entries = [entOut] := by
        with_unfolding_all decide
      rw [h]
      exact List.mem_singleton.mpr rfl),
   (C4_hours_invariant []).2 entLine entCaps (by decide)⟩

/-- C4, counterexample to the claimed annotation: on a line whose apparent
hours column is `2.50-` (which the source's own trailing-minus test
accepts), zero entries are emitted — but the line lands in the ignored list
WITHOUT the "(ignored negative hours)" annotation, because the entry
patterns cannot even match a minus sign in the hours column and the dead
annotation branch never runs. -/
theorem C4_neg_hours_counterexample :
    Pdf.hoursNegative "2.50-" = true ∧
    (Pdf.parsePayrollLines [hdrLine, negLine]).entries = [] ∧
    (Pdf.parsePayrollLines [hdrLine, negLine]).summary.ignoredLines
      = [trimStr negLine] ∧
    ((Pdf.parsePayrollLines [hdrLine, negLine]).summary.ignoredLines.count
      (trimStr negLine ++ " (ignored negative hours)")) = 0 := by
  refine ⟨by decide, by decide, by decide, by decide⟩

namespace Pdf

/-- The value a line contributes to `detectedTotals` once the line reaches
the reported-total block (i.e. was not consumed as a header or date line):
the parsed first numeric token, if positive. -/
def totalTok (line : String) : Option ℚ :=
  if isTotalLine line then
    match firstNumTok line.data with
    | some tok =>
        if 0 < parseNumber (String.mk tok) then some (parseNumber (String.mk tok))
        else none
    | none => none
  else none

/-- The value a line contributes to `detectedTotals` overall: empty lines
and lines matching the employee-header or standalone-date patterns are
consumed before the reported-total check runs. -/
def totalVal (line : String) : Option ℚ :=
  if line = "" then none
  else if (employeeCapture line).isSome then none
  else if (dateOnlyCapture line).isSome then none
  else totalTok line

theorem totalsUpd_totals (st : ParseState) (line : String) :
    (totalsUpd st line).totals = st.totals ++ (totalTok line).toList := by
  unfold totalsUpd totalTok
  split
  · split
    · split
      · simp
      · simp
    · simp
  · simp

theorem processLine_totals (st : ParseState) (line : String) :
    (processLine st line).totals = st.totals ++ (totalVal line).toList := by
  by_cases h0 : line = ""
  · simp [processLine, totalVal, h0]
  · cases hec : employeeCapture line with
    | some x =>
        simp [processLine, totalVal, h0, hec]
    | none =>
        cases hdc : dateOnlyCapture line with
        | some d =>
            simp [processLine, totalVal, h0, hec, hdc]
        | none =>
            simp only [processLine, if_neg h0, hec, hdc, totalVal, Option.isSome_none,
              Bool.false_eq_true, if_false]
            split
            · split
              · split
                · exact totalsUpd_totals st line
                · exact totalsUpd_totals st line
              · split
                · exact totalsUpd_totals st line
                · exact totalsUpd_totals st line
            · split
              · exact totalsUpd_totals st line
              · exact totalsUpd_totals st line

theorem foldl_totals (lines : List String) :
    ∀ st : ParseState,
      (lines.foldl processLine st).totals = st.totals ++ lines.filterMap totalVal := by
  induction lines with
  | nil => intro st; simp
  | cons l ls ih =>
      intro st
      rw [List.foldl_cons, ih (processLine st l), processLine_totals]
      cases h : totalVal l with
      | none => simp [List.filterMap_cons, h]
      | some v => simp [List.filterMap_cons, h]

end Pdf

/-- C5, amended: `detectedTotalHours` is the maximum (`none` on the empty
list) of the values contributed by the reported-total lines — where a line
contributes only if it is not consumed as an employee-header or
standalone-date line, and only its parsed first numeric token when that
value is strictly positive.  In particular a document whose reported-total
lines all carry a zero (or unparseable) first token yields `null`, not the
maximum of the first tokens. -/
theorem C5_detected_total_hours (lines : List String) :
    (Pdf.parsePayrollLines lines).summary.detectedTotalHours =
      Pdf.jsMaxQ (lines.filterMap Pdf.totalVal) := by
  show Pdf.jsMaxQ (lines.foldl Pdf.processLine Pdf.initState).totals = _
  rw [Pdf.foldl_totals]
  rfl

/-- C5, counterexample to the claim as stated: "total hours 0" is a
reported-total line whose first numeric token is "0", so the claimed
maximum over all such lines is 0; but the parser records nothing for it
(only strictly positive parsed tokens are pushed), and
`detectedTotalHours` is `null`, not 0. -/
theorem C5_zero_total_counterexample :
    Pdf.isTotalLine "total hours 0" = true ∧
    Pdf.firstNumTok ("total hours 0").data = some ['0'] ∧
    Pdf.parseNumber "0" = 0 ∧
    (Pdf.parsePayrollLines ["total hours 0"]).summary.detectedTotalHours = none := by
  refine ⟨by decide, by decide, by with_unfolding_all decide,
    by with_unfolding_all decide⟩

namespace Srv

/-- JS object read: the (unique) binding of `k`, if any. -/
def objGet (l : List (String × ℚ)) (k : String) : Option ℚ :=
  (l.find? (fun p => p.1 = k)).map (fun p => p.2)

/-- JS object write: overwrite the binding in place, else append. -/
def objSet (l : List (String × ℚ)) (k : String) (v : ℚ) : List (String × ℚ) :=
  if l.any (fun p => p.1 = k) then
    l.map (fun p => if p.1 = k then (k, v) else p)
  else l ++ [(k, v)]

/-- `obj[k] = (obj[k] || 0) + v`. -/
def objAdd (l : List (String × ℚ)) (k : String) (v : ℚ) : List (String × ℚ) :=
  objSet l k ((objGet l k).getD 0 + v)

set_option linter.unusedVariables false in
/-- `alignBudgetCostCodes` from `src/unnamed/part_001` (lines 47-57):
re-accumulate the budget hours per (already normalized) code, skipping falsy
keys; the `actualTotals` argument is unused by this version. -/
def alignBudgetCostCodes (budgetHours actualTotals : List (String × ℚ)) :
    List (String × ℚ) :=
  budgetHours.foldl (fun acc p => if p.1 = "" then acc else objAdd acc p.1 p.2) []

/-- `alignCostCodeNames` from `src/unnamed/part_001` (lines 59-71): keep the
first name recorded per code, skipping falsy codes and names. -/
def alignCostCodeNames (budgetNames : List (String × String)) :
    List (String × String) :=
  budgetNames.foldl
    (fun acc p =>
      if p.1 = "" ∨ p.2 = "" then acc
      else if acc.any (fun q => q.1 = p.1) then acc else acc ++ [(p.1, p.2)]) []

/-- `new Set([...keys, ...keys])` in iteration order (first occurrence
kept). -/
def setUnion (xs ys : List String) : List String :=
  (xs ++ ys).foldl (fun acc k => if k ∈ acc then acc else acc ++ [k]) []

/-- One row of the cost-code comparison report. -/
structure ComparisonRow where
  costCode : String
  costCodeName : Option String
  budgetHours : ℚ
  actualHours : ℚ
  varianceHours : ℚ
  variancePercent : Option ℚ
  deriving DecidableEq

/-- The row `buildBudgetComparison` builds for one code of the union
(lines 89-102): missing sides default to 0, variance is actual minus
budget, and the percentage exists only for strictly positive budgets. -/
def mkRow (alignedBudget actualTotals : List (String × ℚ))
    (names : List (String × String)) (code : String) : ComparisonRow :=
  { costCode := code,
    costCodeName := (names.find? (fun p => p.1 = code)).map (fun p => p.2),
    budgetHours := (objGet alignedBudget code).getD 0,
    actualHours := (objGet actualTotals code).getD 0,
    varianceHours := (objGet actualTotals code).getD 0 - (objGet alignedBudget code).getD 0,
    variancePercent :=
      if 0 < (objGet alignedBudget code).getD 0 then
        some (((objGet actualTotals code).getD 0 - (objGet alignedBudget code).getD 0) /
          (objGet alignedBudget code).getD 0 * 100)
      else none }

/-- The sort comparator `(a, b) => a.cost_code.localeCompare(b.cost_code)`,
modelled as the code-point order on the code strings. -/
def rowLe (a b : ComparisonRow) : Prop := a.costCode ≤ b.costCode

instance : DecidableRel rowLe := fun a b =>
  inferInstanceAs (Decidable (a.costCode ≤ b.costCode))

instance : IsTotal ComparisonRow rowLe := ⟨fun a b => le_total a.costCode b.costCode⟩

instance : IsTrans ComparisonRow rowLe := ⟨fun _ _ _ h1 h2 => le_trans h1 h2⟩

/-- The pure core of `buildBudgetComparison` (`src/unnamed/part_001` lines
73-106): one row per code of the union of aligned-budget and actual keys,
sorted by code. -/
def buildComparisonRows (budgetHours actualTotals : List (String × ℚ))
    (budgetNames : List (String × String)) : List ComparisonRow :=
  List.insertionSort rowLe
    ((setUnion ((alignBudgetCostCodes budgetHours actualTotals).map Prod.fst)
        (actualTotals.map Prod.fst)).map
      (mkRow (alignBudgetCostCodes budgetHours actualTotals) actualTotals
        (alignCostCodeNames budgetNames)))

theorem setUnion_aux (l : List String) :
    ∀ acc : List String, acc.Nodup →
      ((l.foldl (fun acc k => if k ∈ acc then acc else acc ++ [k]) acc).Nodup ∧
       ∀ x, x ∈ l.foldl (fun acc k => if k ∈ acc then acc else acc ++ [k]) acc ↔
              x ∈ acc ∨ x ∈ l) := by
  induction l with
  | nil => intro acc hacc; simpa using hacc
  | cons k t ih =>
      intro acc hacc
      rw [List.foldl_cons]
      by_cases hk : k ∈ acc
      · rw [if_pos hk]
        obtain ⟨h1, h2⟩ := ih acc hacc
        refine ⟨h1, fun x => ?_⟩
        rw [h2 x, List.mem_cons]
        constructor
        · rintro (hx | hx)
          · exact Or.inl hx
          · exact Or.inr (Or.inr hx)
        · rintro (hx | rfl | hx)
          · exact Or.inl hx
          · exact Or.inl hk
          · exact Or.inr hx
      · rw [if_neg hk]
        have hacc2 : (acc ++ [k]).Nodup := by
          rw [List.nodup_append]
          exact ⟨hacc, List.nodup_singleton k, by simpa using hk⟩
        obtain ⟨h1, h2⟩ := ih (acc ++ [k]) hacc2
        refine ⟨h1, fun x => ?_⟩
        rw [h2 x, List.mem_append, List.mem_singleton, List.mem_cons]
        constructor
        · rintro ((hx | rfl) | hx)
          · exact Or.inl hx
          · exact Or.inr (Or.inl rfl)
          · exact Or.inr (Or.inr hx)
        · rintro (hx | rfl | hx)
          · exact Or.inl (Or.inl hx)
          · exact Or.inl (Or.inr rfl)
          · exact Or.inr hx

theorem setUnion_nodup (xs ys : List String) : (setUnion xs ys).Nodup :=
  (setUnion_aux (xs ++ ys) [] List.nodup_nil).1

theorem mem_setUnion {x : String} {xs ys : List String} :
    x ∈ setUnion xs ys ↔ x ∈ xs ∨ x ∈ ys := by
  rw [setUnion, (setUnion_aux (xs ++ ys) [] List.nodup_nil).2 x]
  simp [List.mem_append]

theorem objGet_eq_none {l : List (String × ℚ)} {k : String}
    (h : k ∉ l.map Prod.fst) : objGet l k = none := by
  unfold objGet
  rw [List.find?_eq_none.mpr]
  · rfl
  · intro p hp
    simp only [decide_eq_true_eq]
    intro hk
    exact h (List.mem_map.mpr ⟨p, hp, hk⟩)

theorem objAdd_keys {x k : String} {v : ℚ} {l : List (String × ℚ)} :
    x ∈ (objAdd l k v).map Prod.fst ↔ x ∈ l.map Prod.fst ∨ x = k := by
  unfold objAdd objSet
  split
  · rename_i hany
    have hmap : (l.map (fun p => if p.1 = k then (k, (objGet l k).getD 0 + v) else p)).map
        Prod.fst = l.map Prod.fst := by
      rw [List.map_map]
      apply List.map_congr_left
      intro p _
      by_cases hp : p.1 = k
      · simp [hp]
      · simp [hp]
    rw [hmap]
    have hk : k ∈ l.map Prod.fst := by
      obtain ⟨p, hp, hpk⟩ := List.any_eq_true.mp hany
      exact List.mem_map.mpr ⟨p, hp, of_decide_eq_true hpk⟩
    constructor
    · exact Or.inl
    · rintro (hx | rfl)
      · exact hx
      · exact hk
  · rw [List.map_append]
    simp [List.mem_append]

theorem alignBudget_keys_aux (b : List (String × ℚ)) :
    ∀ acc : List (String × ℚ), ∀ x : String,
      (x ∈ (b.foldl (fun acc p => if p.1 = "" then acc else objAdd acc p.1 p.2) acc).map
            Prod.fst ↔
        x ∈ acc.map Prod.fst ∨ (x ∈ b.map Prod.fst ∧ x ≠ "")) := by
  induction b with
  | nil => intro acc x; simp
  | cons p t ih =>
      intro acc x
      rw [List.foldl_cons]
      by_cases hp : p.1 = ""
      · rw [if_pos hp, ih acc x]
        simp only [List.map_cons, List.mem_cons]
        constructor
        · rintro (hx | hx)
          · exact Or.inl hx
          · exact Or.inr ⟨Or.inr hx.1, hx.2⟩
        · rintro (hx | ⟨hx1 | hx1, hx2⟩)
          · exact Or.inl hx
          · exact absurd (hx1.trans hp) hx2
          · exact Or.inr ⟨hx1, hx2⟩
      · rw [if_neg hp, ih _ x]
        rw [objAdd_keys]
        simp only [List.map_cons, List.mem_cons]
        constructor
        · rintro ((hx | rfl) | hx)
          · exact Or.inl hx
          · exact Or.inr ⟨Or.inl rfl, hp⟩
          · exact Or.inr ⟨Or.inr hx.1, hx.2⟩
        · rintro (hx | ⟨rfl | hx1, hx2⟩)
          · exact Or.inl (Or.inl hx)
          · exact Or.inl (Or.inr rfl)
          · exact Or.inr ⟨hx1, hx2⟩

theorem alignBudget_keys {b a : List (String × ℚ)} {x : String} :
    x ∈ (alignBudgetCostCodes b a).map Prod.fst ↔ x ∈ b.map Prod.fst ∧ x ≠ "" := by
  rw [alignBudgetCostCodes, alignBudget_keys_aux b [] x]
  simp

end Srv

/-- C6, amended: the comparison output has exactly one row per code of the
union of the two key sets (budget side and actual side), sorted by code;
a code missing on one side gets 0 there; in every row `variance_hours`
equals `actual_hours - budget_hours` exactly, and `variance_percent` is
null if and only if `budget_hours` is NOT strictly positive (the code tests
`budget > 0`, so a zero or negative budget yields null, not only zero). -/
theorem C6_comparison_rows (b a : List (String × ℚ)) (names : List (String × String))
    (hb : "" ∉ b.map Prod.fst) :
    ((Srv.buildComparisonRows b a names).map (fun r => r.costCode)).Nodup ∧
    (∀ code, code ∈ (Srv.buildComparisonRows b a names).map (fun r => r.costCode) ↔
        code ∈ b.map Prod.fst ∨ code ∈ a.map Prod.fst) ∧
    List.Sorted Srv.rowLe (Srv.buildComparisonRows b a names) ∧
    (∀ r ∈ Srv.buildComparisonRows b a names,
      r.varianceHours = r.actualHours - r.budgetHours ∧
      (r.variancePercent = none ↔ ¬ (0 < r.budgetHours)) ∧
      (r.costCode ∉ b.map Prod.fst → r.budgetHours = 0) ∧
      (r.costCode ∉ a.map Prod.fst → r.actualHours = 0)) := by
  have hperm : List.Perm
      ((Srv.buildComparisonRows b a names).map (fun r => r.costCode))
      (((Srv.setUnion ((Srv.alignBudgetCostCodes b a).map Prod.fst)
          (a.map Prod.fst)).map
        (Srv.mkRow (Srv.alignBudgetCostCodes b a) a
          (Srv.alignCostCodeNames names))).map (fun r => r.costCode)) :=
    (List.perm_insertionSort Srv.rowLe _).map _
  have hcodes : ((Srv.setUnion ((Srv.alignBudgetCostCodes b a).map Prod.fst)
      (a.map Prod.fst)).map
        (Srv.mkRow (Srv.alignBudgetCostCodes b a) a
          (Srv.alignCostCodeNames names))).map (fun r => r.costCode) =
      Srv.setUnion ((Srv.alignBudgetCostCodes b a).map Prod.fst) (a.map Prod.fst) := by
    rw [List.map_map]
    exact List.map_id'' (fun code => rfl) _
  have hmem0 : ∀ code,
      code ∈ Srv.setUnion ((Srv.alignBudgetCostCodes b a).map Prod.fst)
          (a.map Prod.fst) ↔
        code ∈ b.map Prod.fst ∨ code ∈ a.map Prod.fst := by
    intro code
    rw [Srv.mem_setUnion, Srv.alignBudget_keys]
    constructor
    · rintro (⟨h1, _⟩ | h1)
      · exact Or.inl h1
      · exact Or.inr h1
    · rintro (h1 | h1)
      · refine Or.inl ⟨h1, ?_⟩
        intro hcode
        exact hb (hcode ▸ h1)
      · exact Or.inr h1
  refine ⟨?_, ?_, ?_, ?_⟩
  · rw [hperm.nodup_iff, hcodes]
    exact Srv.setUnion_nodup _ _
  · intro code
    rw [hperm.mem_iff, hcodes]
    exact hmem0 code
  · exact List.sorted_insertionSort Srv.rowLe _
  · intro r hr
    have hr2 : r ∈ (Srv.setUnion ((Srv.alignBudgetCostCodes b a).map Prod.fst)
        (a.map Prod.fst)).map
          (Srv.mkRow (Srv.alignBudgetCostCodes b a) a
            (Srv.alignCostCodeNames names)) :=
      (List.mem_insertionSort Srv.rowLe).mp hr
    obtain ⟨code, hcode, hrow⟩ := List.mem_map.mp hr2
    refine ⟨?_, ?_, ?_, ?_⟩
    · rw [← hrow]; rfl
    · rw [← hrow]
      unfold Srv.mkRow
      by_cases hpos : 0 < (Srv.objGet (Srv.alignBudgetCostCodes b a) code).getD 0
      · simp [hpos]
      · simp [hpos]
    · intro hnb
      have hcc : r.costCode = code := by rw [← hrow]; rfl
      rw [hcc] at hnb
      have hnal : code ∉ (Srv.alignBudgetCostCodes b a).map Prod.fst := by
        intro hmem
        exact hnb (Srv.alignBudget_keys.mp hmem).1
      rw [← hrow]
      show (Srv.objGet (Srv.alignBudgetCostCodes b a) code).getD 0 = 0
      rw [Srv.objGet_eq_none hnal]
      rfl
    · intro hna
      have hcc : r.costCode = code := by rw [← hrow]; rfl
      rw [hcc] at hna
      rw [← hrow]
      show (Srv.objGet a code).getD 0 = 0
      rw [Srv.objGet_eq_none hna]
      rfl

/-- Witness for C6 at concrete maps. -/
theorem C6_comparison_rows_witness :
    ((Srv.buildComparisonRows [("01-200", (5 : ℚ))] [("02-300", (3 : ℚ))] []).map
        (fun r => r.costCode)).Nodup ∧
    List.Sorted Srv.rowLe
      (Srv.buildComparisonRows [("01-200", (5 : ℚ))] [("02-300", (3 : ℚ))] []) :=
  ⟨(C6_comparison_rows [("01-200", (5 : ℚ))] [("02-300", (3 : ℚ))] []
      (by decide)).1,
   (C6_comparison_rows [("01-200", (5 : ℚ))] [("02-300", (3 : ℚ))] []
      (by decide)).2.2.1⟩

/-- C6, counterexample to the claim as stated: with a (normalized) budget
map carrying a negative hours value — which the budget upload route accepts,
`parseFloat` plus `Number.isFinite` pass negative spreadsheet cells through
— the row has `budget_hours = -5` and null `variance_percent`, so
"variance_percent is null iff budget_hours is 0" fails: the code's test is
`budget > 0`, not `budget ≠ 0`. -/
theorem C6_negative_budget_counterexample :
    Srv.buildComparisonRows [("01-200", (-5 : ℚ))] [] [] =
      [⟨"01-200", none, -5, 0, 5, none⟩] ∧ (-5 : ℚ) < 0 := by
  refine ⟨by with_unfolding_all decide, by with_unfolding_all decide⟩

namespace Srv

/-- One entry of a per-area cost-code breakdown. -/
structure BreakdownEntry where
  costCode : String
  actualHours : ℚ
  budgetHours : ℚ
  varianceHours : ℚ
  variancePercent : Option ℚ
  deriving DecidableEq

/-- The entry `buildCostCodeBreakdown` builds for one code of the union
(`src/unnamed/part_001` lines 236-248). -/
def mkBdEntry (actual budget : List (String × ℚ)) (code : String) : BreakdownEntry :=
  { costCode := code,
    actualHours := (objGet actual code).getD 0,
    budgetHours := (objGet budget code).getD 0,
    varianceHours := (objGet actual code).getD 0 - (objGet budget code).getD 0,
    variancePercent :=
      if 0 < (objGet budget code).getD 0 then
        some (((objGet actual code).getD 0 - (objGet budget code).getD 0) /
          (objGet budget code).getD 0 * 100)
      else none }

/-- The `costCodeEntries` array before the synthetic-Budget and rebalancing
steps: one entry per code of the union of the actual and budget breakdown
keys. -/
def bdEntriesPre (actual budget : List (String × ℚ)) : List BreakdownEntry :=
  (setUnion (actual.map Prod.fst) (budget.map Prod.fst)).map (mkBdEntry actual budget)

/-- The synthetic `'Budget'` entry pushed when the area has budget but no
entries at all (lines 250-258). -/
def bdSynth (budgetTotal : ℚ) (entries : List BreakdownEntry) : List BreakdownEntry :=
  if 0 < budgetTotal ∧ entries = [] then
    entries ++ [⟨"Budget", 0, budgetTotal, -budgetTotal, some (-100)⟩]
  else entries

/-- The in-place mutation of the last entry (lines 263-268): add the budget
residue, recompute variance, and recompute the percentage with a `!== 0`
test. -/
def bdAdjust (budgetTotal allocated : ℚ) (last : BreakdownEntry) : BreakdownEntry :=
  { last with
    budgetHours := last.budgetHours + (budgetTotal - allocated),
    varianceHours := last.actualHours - (last.budgetHours + (budgetTotal - allocated)),
    variancePercent :=
      if last.budgetHours + (budgetTotal - allocated) ≠ 0 then
        some ((last.actualHours - (last.budgetHours + (budgetTotal - allocated))) /
          (last.budgetHours + (budgetTotal - allocated)) * 100)
      else none }

/-- The residual-rebalancing step (lines 260-269): when the area has budget
and at least one entry, fold `budgetTotal - allocatedBudget` into the last
entry. -/
def bdRebalance (budgetTotal : ℚ) (entries : List BreakdownEntry) :
    List BreakdownEntry :=
  if 0 < budgetTotal ∧ entries ≠ [] then
    match entries.getLast? with
    | some last =>
        entries.dropLast ++
          [bdAdjust budgetTotal ((entries.map (fun e => e.budgetHours)).sum) last]
    | none => entries
  else entries

/-- The result record of `buildCostCodeBreakdown`. -/
structure BreakdownResult where
  entries : List BreakdownEntry
  totalActual : ℚ
  totalBudget : ℚ
  deriving DecidableEq

/-- `buildCostCodeBreakdown` (`src/unnamed/part_001` lines 227-278) as a
pure function of the aggregated actual and budget cost-code maps of one
area and the area's total budgeted hours. -/
def buildCostCodeBreakdown (actual budget : List (String × ℚ)) (budgetTotal : ℚ) :
    BreakdownResult :=
  { entries := bdRebalance budgetTotal (bdSynth budgetTotal (bdEntriesPre actual budget)),
    totalActual :=
      ((bdRebalance budgetTotal (bdSynth budgetTotal (bdEntriesPre actual budget))).map
        (fun e => e.actualHours)).sum,
    totalBudget := budgetTotal }

end Srv

/-- C7: when an area's total budgeted hours is positive and its breakdown
has at least one entry, rebalancing adds the residual
(`budgetTotal - allocated`) to the last entry only: afterwards the per-code
budget hours sum exactly to the area total, all entries but the last are
unchanged, the length is unchanged, and the last entry keeps its code and
actual hours with its budget raised by exactly the residual. -/
theorem C7_residual_rebalance (actual budget : List (String × ℚ)) (budgetTotal : ℚ)
    (hpos : 0 < budgetTotal) (hne : Srv.bdEntriesPre actual budget ≠ []) :
    (((Srv.buildCostCodeBreakdown actual budget budgetTotal).entries.map
        (fun e => e.budgetHours)).sum = budgetTotal) ∧
    ((Srv.buildCostCodeBreakdown actual budget budgetTotal).entries.dropLast =
      (Srv.bdEntriesPre actual budget).dropLast) ∧
    ((Srv.buildCostCodeBreakdown actual budget budgetTotal).entries.length =
      (Srv.bdEntriesPre actual budget).length) ∧
    (∃ last, (Srv.bdEntriesPre actual budget).getLast? = some last ∧
      (Srv.buildCostCodeBreakdown actual budget budgetTotal).entries.getLast? =
        some (Srv.bdAdjust budgetTotal
          (((Srv.bdEntriesPre actual budget).map (fun e => e.budgetHours)).sum) last) ∧
      (Srv.bdAdjust budgetTotal
          (((Srv.bdEntriesPre actual budget).map (fun e => e.budgetHours)).sum)
          last).costCode = last.costCode ∧
      (Srv.bdAdjust budgetTotal
          (((Srv.bdEntriesPre actual budget).map (fun e => e.budgetHours)).sum)
          last).actualHours = last.actualHours ∧
      (Srv.bdAdjust budgetTotal
          (((Srv.bdEntriesPre actual budget).map (fun e => e.budgetHours)).sum)
          last).budgetHours = last.budgetHours +
            (budgetTotal -
              ((Srv.bdEntriesPre actual budget).map (fun e => e.budgetHours)).sum)) := by
  have hsynth : Srv.bdSynth budgetTotal (Srv.bdEntriesPre actual budget) =
      Srv.bdEntriesPre actual budget := by
    unfold Srv.bdSynth
    exact if_neg (fun hand => hne hand.2)
  have hlast : (Srv.bdEntriesPre actual budget).getLast? =
      some ((Srv.bdEntriesPre actual budget).getLast hne) :=
    List.getLast?_eq_getLast _ hne
  have hreb : Srv.bdRebalance budgetTotal (Srv.bdEntriesPre actual budget) =
      (Srv.bdEntriesPre actual budget).dropLast ++
        [Srv.bdAdjust budgetTotal
          (((Srv.bdEntriesPre actual budget).map (fun e => e.budgetHours)).sum)
          ((Srv.bdEntriesPre actual budget).getLast hne)] := by
    unfold Srv.bdRebalance
    rw [if_pos ⟨hpos, hne⟩, hlast]
  have hentries : (Srv.buildCostCodeBreakdown actual budget budgetTotal).entries =
      (Srv.bdEntriesPre actual budget).dropLast ++
        [Srv.bdAdjust budgetTotal
          (((Srv.bdEntriesPre actual budget).map (fun e => e.budgetHours)).sum)
          ((Srv.bdEntriesPre actual budget).getLast hne)] := by
    show Srv.bdRebalance budgetTotal (Srv.bdSynth budgetTotal _) = _
    rw [hsynth, hreb]
  have hsplit : (Srv.bdEntriesPre actual budget).dropLast ++
      [(Srv.bdEntriesPre actual budget).getLast hne] = Srv.bdEntriesPre actual budget :=
    List.dropLast_append_getLast hne
  refine ⟨?_, ?_, ?_, ?_⟩
  · rw [hentries, List.map_append, List.sum_append]
    have hsum : ((Srv.bdEntriesPre actual budget).map (fun e => e.budgetHours)).sum =
        (((Srv.bdEntriesPre actual budget).dropLast.map (fun e => e.budgetHours)).sum +
          ((Srv.bdEntriesPre actual budget).getLast hne).budgetHours) := by
      conv_lhs => rw [← hsplit]
      rw [List.map_append, List.sum_append]
      simp
    simp only [List.map_cons, List.map_nil, List.sum_cons, List.sum_nil, add_zero]
    show _ + (Srv.bdAdjust _ _ _).budgetHours = _
    unfold Srv.bdAdjust
    rw [hsum]
    ring
  · rw [hentries, List.dropLast_concat]
  · rw [hentries, List.length_append]
    have h1 := List.length_dropLast (Srv.bdEntriesPre actual budget)
    have h2 : 0 < (Srv.bdEntriesPre actual budget).length :=
      List.length_pos.mpr hne
    simp only [List.length_cons, List.length_nil]
    omega
  · refine ⟨(Srv.bdEntriesPre actual budget).getLast hne, hlast, ?_, rfl, rfl, rfl⟩
    rw [hentries, List.getLast?_concat]

/-- Witness for C7 at concrete breakdown maps. -/
theorem C7_residual_rebalance_witness :
    ((Srv.buildCostCodeBreakdown [("01-200", (3 : ℚ))]
        [("01-200", (2 : ℚ)), ("02-300", (4 : ℚ))] 10).entries.map
      (fun e => e.budgetHours)).sum = 10 :=
  (C7_residual_rebalance [("01-200", (3 : ℚ))]
    [("01-200", (2 : ℚ)), ("02-300", (4 : ℚ))] 10 (by norm_num)
    (by with_unfolding_all decide)).1

namespace Util

theorem splitChar_cons_of_ne {sep c : Char} {t : List Char} (h : ¬ c = sep) :
    splitChar sep (c :: t) =
      match splitChar sep t with
      | [] => [[c]]
      | h :: r => (c :: h) :: r := by
  rw [splitChar, if_neg h]

theorem splitChar_ne_nil (sep : Char) : ∀ l : List Char, splitChar sep l ≠ []
  | [] => by simp [splitChar]
  | c :: t => by
      by_cases hc : c = sep
      · simp [splitChar, hc]
      · rw [splitChar_cons_of_ne hc]
        split
        · simp
        · simp

theorem splitChar_no_sep {sep : Char} :
    ∀ {l : List Char}, (∀ c ∈ l, c ≠ sep) → splitChar sep l = [l]
  | [], _ => rfl
  | c :: t, h => by
      rw [splitChar_cons_of_ne (h c (List.mem_cons_self c t)),
        splitChar_no_sep (fun x hx => h x (List.mem_cons_of_mem c hx))]

theorem splitChar_append {sep : Char} :
    ∀ {a : List Char} (r : List Char), (∀ c ∈ a, c ≠ sep) →
      splitChar sep (a ++ sep :: r) = a :: splitChar sep r
  | [], r, _ => by simp [splitChar]
  | c :: t, r, h => by
      rw [List.cons_append,
        splitChar_cons_of_ne (h c (List.mem_cons_self c t)),
        splitChar_append r (fun x hx => h x (List.mem_cons_of_mem c hx))]

theorem digit_ne_slash {c : Char} (h : charIsDigit c = true) : c ≠ '/' := by
  intro hc
  rw [hc] at h
  exact absurd h (by decide)

end Util

namespace Pdf

theorem parseIntJS_digits {l : List Char} (hne : l ≠ [])
    (hd : ∀ c ∈ l, charIsDigit c = true) :
    parseIntJS l = some ((digitsVal l : Int)) := by
  have hds : l.dropWhile jsSpace = l :=
    dropWhile_eq_self (fun c hc => notSpace_of_bounds (charIsDigit_bounds (hd c hc)).1)
  have hhead : ∃ c t, l = c :: t ∧ charIsDigit c = true := by
    cases l with
    | nil => exact absurd rfl hne
    | cons c t => exact ⟨c, t, rfl, hd c (List.mem_cons_self c t)⟩
  obtain ⟨c, t, rfl, hc⟩ := hhead
  have htake : (c :: t).takeWhile charIsDigit = c :: t :=
    List.takeWhile_eq_self_iff.mpr hd
  unfold parseIntJS
  rw [hds]
  rw [if_neg (by
        simp only [List.head?_cons, Option.some.injEq]
        intro hcm
        rw [hcm] at hc
        exact absurd hc (by decide))]
  rw [if_neg (by
        simp only [List.head?_cons, Option.some.injEq]
        intro hcm
        rw [hcm] at hc
        exact absurd hc (by decide))]
  rw [htake, if_neg (by simp)]

theorem padStart2_len2 {l : List Char} (h : l.length = 2) : padStart2 l = l := by
  unfold padStart2
  rw [if_neg (by omega)]

end Pdf

/-- C9: `convertDate` maps an `MM/DD/YY` string (two-digit numeric
components) to `YYYY-MM-DD`, where a two-digit year below 50 becomes `20YY`
and any other becomes `19YY`; in particular "10/24/23" maps to "2023-10-24"
and "05/01/75" to "1975-05-01". -/
theorem C9_convert_date :
    (∀ m d y : String,
      m.data.length = 2 → (∀ c ∈ m.data, charIsDigit c = true) →
      d.data.length = 2 → (∀ c ∈ d.data, charIsDigit c = true) →
      y.data.length = 2 → (∀ c ∈ y.data, charIsDigit c = true) →
      Pdf.convertDate (m ++ "/" ++ d ++ "/" ++ y) =
        (if digitsVal y.data < 50 then "20" ++ y else "19" ++ y) ++ "-" ++ m ++ "-" ++ d) ∧
    Pdf.convertDate "10/24/23" = "2023-10-24" ∧
    Pdf.convertDate "05/01/75" = "1975-05-01" := by
  refine ⟨?_, by decide, by decide⟩
  intro m d y hm1 hm2 hd1 hd2 hy1 hy2
  have hdata : (m ++ "/" ++ d ++ "/" ++ y).data =
      m.data ++ '/' :: (d.data ++ '/' :: y.data) := by
    simp [String.data_append]
  have hsplit : splitChar '/' ((m ++ "/" ++ d ++ "/" ++ y)).data =
      [m.data, d.data, y.data] := by
    rw [hdata, splitChar_append _ (fun c hc => digit_ne_slash (hm2 c hc)),
      splitChar_append _ (fun c hc => digit_ne_slash (hd2 c hc)),
      splitChar_no_sep (fun c hc => digit_ne_slash (hy2 c hc))]
  have hyne : y.data ≠ [] := by
    intro h0
    rw [h0] at hy1
    simp at hy1
  unfold Pdf.convertDate
  rw [hsplit]
  simp only [List.get?_cons_zero, List.get?_cons_succ, Option.getD_some]
  rw [Pdf.parseIntJS_digits hyne hy2, Pdf.padStart2_len2 hm1, Pdf.padStart2_len2 hd1]
  by_cases hy : digitsVal y.data < 50
  · have hlt : Pdf.intLt50 (some ((digitsVal y.data : Int))) = true := by
      simp [Pdf.intLt50]
      exact_mod_cast hy
    rw [if_pos hlt, if_pos hy]
    apply String.ext
    simp [String.data_append]
  · have hlt : Pdf.intLt50 (some ((digitsVal y.data : Int))) = false := by
      simp [Pdf.intLt50]
      exact_mod_cast Nat.not_lt.mp hy
    rw [if_neg (by simp [hlt]), if_neg hy]
    apply String.ext
    simp [String.data_append]

/-- Witness for C9 at the spec's own example. -/
theorem C9_convert_date_witness :
    Pdf.convertDate ("10" ++ "/" ++ "24" ++ "/" ++ "23") =
      (if digitsVal ("23" : String).data < 50 then "20" ++ "23" else "19" ++ "23") ++
        "-" ++ "10" ++ "-" ++ "24" :=
  C9_convert_date.1 "10" "24" "23" (by decide) (by decide) (by decide) (by decide)
    (by decide) (by decide)

namespace Db2

/-- A persisted time-entry record of the revised database layer (fields of
`timeEntryQueries.create` in `src/unnamed/part_000`; JS field names
`project_id`, `pay_class`, `certified_class`, `cost_code`,
`job_description` are camel-cased here). -/
structure DbEntry where
  id : Int
  projectId : Int
  uploadId : Int
  employee : String
  payId : String
  payClass : String
  unionLocal : Option String
  certClass : String
  date : String
  hours : ℚ
  rate : ℚ
  costCode : Option String
  jobDesc : Option String
  deriving DecidableEq

/-- The `updates` object of `updateEntry`: each whitelisted field is either
absent (`undefined`, outer `none`) or present with a possibly-null value. -/
structure EntryUpdates where
  costCode : Option (Option String)
  jobDesc : Option (Option String)
  deriving DecidableEq

/-- The per-field whitelist loop of `updateEntry` (lines 426-432): only
`cost_code` and `job_description` are copied from the updates object, and
only when they are not `undefined` (`value === null ? null : value` is the
identity on present values). -/
def applyUpdates (e : DbEntry) (u : EntryUpdates) : DbEntry :=
  { e with
    costCode := match u.costCode with | some v => v | none => e.costCode,
    jobDesc := match u.jobDesc with | some v => v | none => e.jobDesc }

/-- `updateEntry` from `src/unnamed/part_000` (lines 418-436): find the
first entry with the given id (`none` models the thrown 'Entry not found'),
apply the whitelisted updates in place, and return the new store and the
updated entry. -/
def updateEntry (entries : List DbEntry) (id : Int) (u : EntryUpdates) :
    Option (List DbEntry × DbEntry) :=
  match entries.findIdx? (fun e => e.id = id) with
  | none => none
  | some i =>
      match entries[i]? with
      | none => none
      | some e => some (entries.set i (applyUpdates e u), applyUpdates e u)

end Db2

/-- C10: a successful `updateEntry` changes at most the `cost_code` and
`job_description` fields of the (first) entry with the given id: the result
store is the input store with exactly position `i` replaced, every other
position unchanged, and the replaced entry agrees with the old one on every
field except the two whitelisted ones. -/
theorem C10_update_entry_frame (entries : List Db2.DbEntry) (id : Int)
    (u : Db2.EntryUpdates) (l2 : List Db2.DbEntry) (e2 : Db2.DbEntry)
    (h : Db2.updateEntry entries id u = some (l2, e2)) :
    ∃ i e, entries.findIdx? (fun x => x.id = id) = some i ∧
      entries[i]? = some e ∧
      e2 = Db2.applyUpdates e u ∧
      l2 = entries.set i e2 ∧
      l2.length = entries.length ∧
      (∀ j, j ≠ i → l2[j]? = entries[j]?) ∧
      e2.id = e.id ∧ e2.projectId = e.projectId ∧ e2.uploadId = e.uploadId ∧
      e2.employee = e.employee ∧ e2.payId = e.payId ∧ e2.payClass = e.payClass ∧
      e2.unionLocal = e.unionLocal ∧ e2.certClass = e.certClass ∧
      e2.date = e.date ∧ e2.hours = e.hours ∧ e2.rate = e.rate := by
  unfold Db2.updateEntry at h
  split at h
  · exact absurd h (by simp)
  · rename_i i hidx
    split at h
    · exact absurd h (by simp)
    · rename_i e hget
      have hpair := Option.some.inj h
      have hl : l2 = entries.set i (Db2.applyUpdates e u) :=
        ((Prod.mk.injEq _ _ _ _).mp hpair).1.symm
      have he : e2 = Db2.applyUpdates e u :=
        ((Prod.mk.injEq _ _ _ _).mp hpair).2.symm
      refine ⟨i, e, hidx, hget, he, by rw [hl, he], ?_, ?_, ?_, ?_, ?_, ?_, ?_, ?_,
        ?_, ?_, ?_, ?_, ?_⟩
      · rw [hl]; exact List.length_set entries i _
      · intro j hj
        rw [hl]
        exact List.getElem?_set_ne (fun hij => hj hij.symm)
      all_goals rw [he]; rfl

/-- The two-entry store used to witness C10. -/
def storeBefore : List Db2.DbEntry :=
  [⟨1, 1, 1, "Alice Smith", "841", "J", some "4086", "TA01J1", "2023-10-24",
      8, 30, some "09-170", some "Bld 1"⟩,
   ⟨2, 1, 1, "Bob Jones", "842", "F", some "4086", "TB02K1", "2023-10-24",
      6, 32, none, some "Bld 2"⟩]

/-- `storeBefore` after `updateEntry 2 {cost_code: "01-200"}`. -/
def storeAfter : List Db2.DbEntry :=
  [⟨1, 1, 1, "Alice Smith", "841", "J", some "4086", "TA01J1", "2023-10-24",
      8, 30, some "09-170", some "Bld 1"⟩,
   ⟨2, 1, 1, "Bob Jones", "842", "F", some "4086", "TB02K1", "2023-10-24",
      6, 32, some "01-200", some "Bld 2"⟩]

/-- Witness for C10 at a concrete store and update. -/
theorem C10_update_entry_frame_witness :
    storeAfter.length = storeBefore.length ∧ storeAfter[0]? = storeBefore[0]? := by
  obtain ⟨i, e, h1, h2, h3, h4, h5, h6, _⟩ :=
    C10_update_entry_frame storeBefore 2 ⟨some (some "01-200"), none⟩
      storeAfter ⟨2, 1, 1, "Bob Jones", "842", "F", some "4086", "TB02K1",
        "2023-10-24", 6, 32, some "01-200", some "Bld 2"⟩
      (by decide)
    
  have hi : i = 1 := by
    have : storeBefore.findIdx? (fun x => x.id = 2) = some 1 := by decide
    rw [this] at h1
    exact (Option.some.inj h1).symm
  exact ⟨h5, h6 0 (by rw [hi]; exact Nat.zero_ne_one)⟩
